import Mathlib

/-!
Verification of the boot-operator image subsystem.

Shallow embedding of the Go sources of ironcore-dev/boot-operator:
Go strings are modelled as `List Char`, Go `int64` as `Int`, Go maps as
association lists whose list order stands in for one map-iteration order,
and fallible functions return `Option` or `Except`.  Each definition keeps
the source function's name where Lean allows it.
-/

set_option maxHeartbeats 1000000

namespace BootOp

/-- Coercion from a Lean string literal to the `List Char` model of Go strings. -/
def chars (s : String) : List Char := s.data

/-- Go `strings.Split(s, sep)` for a one-character separator.
Always returns at least one (possibly empty) piece, like Go. -/
def goSplit (sep : Char) : List Char → List (List Char)
  | [] => [[]]
  | c :: rest =>
    match goSplit sep rest with
    | [] => [[]]
    | g :: gs => if c = sep then [] :: g :: gs else (c :: g) :: gs

/-- Go `strings.TrimSpace` (whitespace trim at both ends). -/
def goTrimSpace (s : List Char) : List Char :=
  ((s.dropWhile Char.isWhitespace).reverse.dropWhile Char.isWhitespace).reverse

/-- Go `strings.LastIndex(s, c)` for a one-character needle, with
`none` standing for Go's `-1`. -/
def lastIndexOf (c : Char) : List Char → Option Nat
  | [] => none
  | x :: rest =>
    match lastIndexOf c rest with
    | some i => some (i + 1)
    | none => if x = c then some 0 else none

/-- Go `strings.Index(hay, pat)` (first occurrence of a substring),
with `none` standing for Go's `-1`. -/
def subIndex (pat : List Char) : List Char → Option Nat
  | [] => if pat = [] then some 0 else none
  | x :: rest =>
    if pat.isPrefixOf (x :: rest) then some 0
    else (subIndex pat rest).map (· + 1)

/-- Go `strings.Cut(s, "@")` for a one-character separator: the part before
the first occurrence, and `some` rest when the separator occurs. -/
def goCut (c : Char) : List Char → List Char × Option (List Char)
  | [] => ([], none)
  | x :: rest =>
    if x = c then ([], some rest)
    else
      match goCut c rest with
      | (before, after) => (x :: before, after)

/-- Go `strings.TrimSuffix(s, suf)`: drops `suf` when present, else `s`. -/
def goTrimSuffix (s suf : List Char) : List Char :=
  if suf.isSuffixOf s then s.take (s.length - suf.length) else s

/-- Go `strings.TrimPrefix(s, pre)`: drops `pre` when present, else `s`.
(From `strings.TrimPrefix` in the source; named to satisfy Lean lexical rules.) -/
def goTrimStart (s pre : List Char) : List Char :=
  if pre.isPrefixOf s then s.drop pre.length else s

section RegistryPolicy

/-- Embedding of `isInList` from `server/imageproxyserver.go`: membership of `registry`
in a comma-separated `list`, each item space-trimmed, exact match. -/
def isInList (registry list : List Char) : Bool :=
  if list = [] then false
  else (goSplit ',' list).any fun item => goTrimSpace item = registry

/-- Embedding of `isRegistryAllowed` from `server/imageproxyserver.go`, with the two
environment variables `ALLOWED_REGISTRIES` / `BLOCKED_REGISTRIES`
passed as the `allowList` / `blockList` parameters. -/
def isRegistryAllowed (allowList blockList registry : List Char) : Bool :=
  if allowList ≠ [] then isInList registry allowList
  else if blockList ≠ [] then !(isInList registry blockList)
  else false

end RegistryPolicy

section RegistryAuth

/-- Embedding of `AuthMethod` from `server/imageproxyserver.go`. -/
inductive AuthMethod where
  | authNone
  | authBasic
  | authBearer
deriving DecidableEq

/-- Embedding of `RegistryInfo` from `server/imageproxyserver.go`. -/
structure RegistryInfo where
  domain : List Char
  authMethod : AuthMethod
  tokenURL : List Char
  realm : List Char
deriving DecidableEq

/-- Embedding of `extractParam` from `server/imageproxyserver.go`: the value of a
`param="value"` pair inside a `WWW-Authenticate` header, `[]` when absent. -/
def extractParam (header param : List Char) : List Char :=
  match subIndex (param ++ chars "=\"") header with
  | none => []
  | some start =>
    let start := start + param.length + 2
    match subIndex (chars "\"") (header.drop start) with
    | none => []
    | some stop => (header.drop start).take stop

/-- Embedding of `extractTokenURL` from `server/imageproxyserver.go`: builds the bearer
token URL with repository pull scope from the auth challenge header. -/
def extractTokenURL (authHeader repository : List Char) : List Char :=
  let realm := extractParam authHeader (chars "realm")
  let service := extractParam authHeader (chars "service")
  if realm = [] then []
  else
    let scope := chars "repository:" ++ repository ++ chars ":pull"
    if service ≠ [] then
      realm ++ chars "?service=" ++ service ++ chars "&scope=" ++ scope
    else realm ++ chars "?scope=" ++ scope

/-- Outcome of the Go `http.Get("https://domain/v2/")` probe:
either a transport error or a status code with the `WWW-Authenticate` header
(`[]` when the header is absent). -/
abbrev ProbeResult := Except (List Char) (Nat × List Char)

/-- Embedding of `detectRegistryAuth` from `server/imageproxyserver.go`, with the network
probe's outcome passed in as `probe`. -/
def detectRegistryAuth (registryDomain repository : List Char) (probe : ProbeResult) :
    Except (List Char) RegistryInfo :=
  match probe with
  | .error e => .error (chars "registry unreachable: " ++ e)
  | .ok (status, authHeader) =>
    if status = 200 then
      .ok ⟨registryDomain, .authNone, [], []⟩
    else if status = 401 then
      if authHeader = [] then .error (chars "401 without WWW-Authenticate header")
      else if (chars "Bearer ").isPrefixOf authHeader then
        .ok ⟨registryDomain, .authBearer, extractTokenURL authHeader repository, []⟩
      else if (chars "Basic ").isPrefixOf authHeader then
        .ok ⟨registryDomain, .authBasic, [], extractParam authHeader (chars "realm")⟩
      else .error (chars "unsupported auth: " ++ authHeader)
    else .error (chars "unexpected status")

/-- The process-wide `registryCache` map, as an association list. -/
abbrev RegistryCache := List (List Char × RegistryInfo)

/-- Go map read `registryCache[cacheKey]`. -/
def cacheLookup (key : List Char) : RegistryCache → Option RegistryInfo
  | [] => none
  | (k, info) :: rest => if k = key then some info else cacheLookup key rest

/-- Go map write `registryCache[cacheKey] = info`. -/
def cacheStore (key : List Char) (info : RegistryInfo) : RegistryCache → RegistryCache
  | [] => [(key, info)]
  | (k, i0) :: rest =>
    if k = key then (key, info) :: rest else (k, i0) :: cacheStore key info rest

/-- Embedding of `getOrDetectRegistry` from `server/imageproxyserver.go`: returns the
cached info when present; otherwise runs detection and caches only a
successful result.  Returns the outcome together with the cache after the
call. -/
def getOrDetectRegistry (cache : RegistryCache) (registry repository : List Char)
    (probe : ProbeResult) : Except (List Char) RegistryInfo × RegistryCache :=
  match cacheLookup registry cache with
  | some info => (.ok info, cache)
  | none =>
    match detectRegistryAuth registry repository probe with
    | .error e => (.error e, cache)
    | .ok info => (.ok info, cacheStore registry info cache)

/-- What the `handleDockerRegistry` auth phase does with a request:
either answer immediately with an HTTP status and message, or continue
to the blob proxy carrying an auth token. -/
inductive HandlerOutcome where
  | respond (status : Nat) (message : List Char)
  | proceed (authToken : List Char)
deriving DecidableEq

/-- The auth-token phase of `handleDockerRegistry` from
`server/imageproxyserver.go` (the `switch registryInfo.AuthMethod` block),
with the outcome of `getBearerToken` on a given URL passed as `tokenFetch`. -/
def handleAuthPhase (info : RegistryInfo)
    (tokenFetch : List Char → Except (List Char) (List Char)) : HandlerOutcome :=
  match info.authMethod with
  | .authBearer =>
    match tokenFetch info.tokenURL with
    | .error _ => .respond 401 (chars "Authentication failed")
    | .ok token => .proceed token
  | .authBasic => .respond 501 (chars "Basic auth not yet implemented")
  | .authNone => .proceed []

end RegistryAuth

section ImagePath

/-- Embedding of `ImageDetails` from `server/imageproxyserver.go`. -/
structure ImageDetails where
  ociImageName : List Char
  registryDomain : List Char
  repositoryName : List Char
  layerDigest : List Char
deriving DecidableEq

/-- Embedding of `extractRegistryDomain` from `server/imageproxyserver.go`: first path
segment when it looks like a domain (contains a dot or colon), else the
implicit Docker Hub domain. -/
def extractRegistryDomain (imageRef : List Char) : List Char :=
  match goCut '/' imageRef with
  | (_, none) => chars "registry-1.docker.io"
  | (first, some _) =>
    if first.contains '.' || first.contains ':' then first
    else chars "registry-1.docker.io"

/-- Embedding of `extractRepository` from `server/imageproxyserver.go`. -/
def extractRepository (imageRef registryDomain : List Char) : List Char :=
  goTrimStart imageRef (registryDomain ++ chars "/")

/-- Embedding of `parseHttpBootImagePath` from `server/imageproxyserver.go`. -/
def parseHttpBootImagePath (path : List Char) : Option ImageDetails :=
  let trimmed := goTrimStart path (chars "/httpboot/")
  let segments := goSplit '/' trimmed
  if segments.length < 2 then none
  else
    let imageName := List.intercalate (chars "/") (segments.dropLast)
    let digestSegment := (segments.getLast?).getD []
    let registryDomain := extractRegistryDomain imageName
    let repositoryName := extractRepository imageName registryDomain
    let digestSegment := goTrimSuffix digestSegment (chars ".efi")
    if !(chars "sha256-").isPrefixOf digestSegment then none
    else
      let layerDigest := chars "sha256:" ++ goTrimStart digestSegment (chars "sha256-")
      some ⟨imageName, registryDomain, repositoryName, layerDigest⟩

end ImagePath

section UKIReference

/-- Embedding of `lastTagSeparatorIndex` from `internal/uki` (embedded Go source in
`dist/chart/templates/manager/manager.yaml`): only the last `:` after the
last `/` is a tag separator; `none` stands for Go's `-1`. -/
def lastTagSeparatorIndex (ref : List Char) : Option Nat :=
  match lastIndexOf ':' ref with
  | none => none
  | some lastColon =>
    match lastIndexOf '/' ref with
    | none => some lastColon
    | some lastSlash => if lastColon > lastSlash then some lastColon else none

/-- Embedding of `parseOCIReferenceForUKI` from `internal/uki`: splits an image reference
into `(repository, imageRef)`, handling `name:tag`, `name@digest` and
`name:tag@digest` forms; `none` stands for the Go error returns. -/
def parseOCIReferenceForUKI (image : List Char) : Option (List Char × List Char) :=
  match goCut '@' image with
  | (base, some digest) =>
    if base = [] ∨ digest = [] then none
    else
      let repository :=
        match lastTagSeparatorIndex base with
        | some tagSep => base.take tagSep
        | none => base
      if repository = [] then none
      else some (repository, base ++ '@' :: digest)
  | (_, none) =>
    match lastTagSeparatorIndex image with
    | none => none
    | some tagSep =>
      let repository := image.take tagSep
      let tag := image.drop (tagSep + 1)
      if repository = [] ∨ tag = [] then none
      else some (repository, image)

end UKIReference

section OCIResolution

/-- String-keyed string map (`map[string]string` annotations), as an
association list; a missing key reads as the zero value `[]`, like Go. -/
abbrev StringMap := List (List Char × List Char)

/-- Go map read with zero-value default (`m[key]` for `map[string]string`). -/
def smGet (m : StringMap) (key : List Char) : List Char :=
  match m with
  | [] => []
  | (k, v) :: rest => if k = key then v else smGet rest key

/-- Go comma-ok map read (`v, ok := m[key]`). -/
def smGetOk (m : StringMap) (key : List Char) : Option (List Char) :=
  match m with
  | [] => none
  | (k, v) :: rest => if k = key then some v else smGetOk rest key

/-- Embedding of `ocispec.Platform`, restricted to the field the code reads. -/
structure Platform where
  architecture : List Char
deriving DecidableEq

/-- Embedding of `ocispec.Descriptor`, restricted to the fields the code reads.
`digest` holds `Digest.String()`; the Go zero descriptor has `digest = []`. -/
structure Descriptor where
  mediaType : List Char
  digest : List Char
  size : Int
  annotations : StringMap
  platform : Option Platform
deriving DecidableEq

/-- The zero `ocispec.Descriptor`. -/
def zeroDescriptor : Descriptor := ⟨[], [], 0, [], none⟩

/-- Embedding of `CNAMEPrefixMetalPXE` from `serverbootconfiguration_pxe_controller.go`. -/
def cnamePrefixMetalPXE : List Char := chars "metal_pxe"

/-- The legacy first selection pass of
`(*ServerBootConfigurationPXEReconciler).getLayerDigestsFromNestedManifest`:
a `cname` annotation with the `metal_pxe` prefix and an `architecture`
annotation equal to the target architecture. -/
def cnameArchMatch (arch : List Char) (entry : Descriptor) : Bool :=
  cnamePrefixMetalPXE.isPrefixOf (smGet entry.annotations (chars "cname")) &&
    smGet entry.annotations (chars "architecture") = arch

/-- The structured second selection pass: `entry.Platform != nil` and
`entry.Platform.Architecture == arch`. -/
def platformArchMatch (arch : List Char) (entry : Descriptor) : Bool :=
  match entry.platform with
  | some p => p.architecture = arch
  | none => false

/-- The index-entry selection of
`(*ServerBootConfigurationPXEReconciler).getLayerDigestsFromNestedManifest`
(`serverbootconfiguration_pxe_controller.go`): the first loop scans for a
legacy `cname`/`architecture` annotation match, and only when the resulting
descriptor still has an empty digest does the second loop scan for a
structured platform-architecture match. -/
def selectTargetManifest (entries : List Descriptor) (arch : List Char) : Descriptor :=
  let afterLegacy :=
    match entries.find? (cnameArchMatch arch) with
    | some entry => entry
    | none => zeroDescriptor
  if afterLegacy.digest = [] then
    match entries.find? (platformArchMatch arch) with
    | some entry => entry
    | none => afterLegacy
  else afterLegacy

/-- The selection step together with its `targetManifestDesc.Digest == ""`
failure check, producing the error of the source
(`failed to find target manifest with architecture %s`). -/
def selectTargetManifestRes (entries : List Descriptor) (arch : List Char) :
    Except (List Char) Descriptor :=
  let target := selectTargetManifest entries arch
  if target.digest = [] then
    .error (chars "failed to find target manifest with architecture " ++ arch)
  else .ok target

/-- Embedding of `findManifestByArchitecture` from `internal/uki`: single structured
platform pass over the index entries. -/
def findManifestByArchitecture (entries : List Descriptor) (arch : List Char) :
    Option Descriptor :=
  entries.find? (platformArchMatch arch)

end OCIResolution

section FetchContent

/-- Decimal rendering of a Go `int64` for `fmt.Errorf("%d", ...)`. -/
def intToChars (i : Int) : List Char :=
  if i < 0 then '-' :: Nat.toDigits 10 i.natAbs else Nat.toDigits 10 i.natAbs

/-- Outcome of `io.ReadAll(reader)` on the fetched stream: a transport
error or the bytes actually read. -/
abbrev ReadResult := Except (List Char) (List Nat)

/-- Embedding of `fetchContent` as in `internal/uki` and
`serverbootconfiguration_pxe_controller.go`: after a successful read the
byte count is compared against the descriptor's declared `Size`, and a
mismatch is the hard error `size mismatch: expected N, got M`. -/
def fetchContent (desc : Descriptor) (readAll : ReadResult) :
    Except (List Char) (List Nat) :=
  match readAll with
  | .error e => .error (chars "failed to read content: " ++ e)
  | .ok data =>
    if (data.length : Int) ≠ desc.size then
      .error (chars "size mismatch: expected " ++ intToChars desc.size ++
        chars ", got " ++ intToChars (data.length : Int))
    else .ok data

/-- Embedding of `(*VirtualMediaBootConfigReconciler).fetchContent` from
`virtualmediabootconfig_controller.go`: reads the stream and returns
whatever bytes were read, with no size comparison. -/
def fetchContentVirtualMedia (desc : Descriptor) (readAll : ReadResult) :
    Except (List Char) (List Nat) :=
  match readAll with
  | .error e => .error (chars "failed to read content: " ++ e)
  | .ok data => .ok data

end FetchContent

section ISOLayer

/-- Embedding of `MediaTypeISO` from `virtualmediabootconfig_controller.go`. -/
def mediaTypeISO : List Char := chars "application/vnd.ironcore.image.iso"

/-- One iteration of the layer loop of
`(*VirtualMediaBootConfigReconciler).getISOLayerDigest`: explicit ISO media
type, or an `org.opencontainers.image.title` annotation ending in `.iso`. -/
def isoLayerMatch (layer : Descriptor) : Bool :=
  layer.mediaType = mediaTypeISO ||
    (match smGetOk layer.annotations (chars "org.opencontainers.image.title") with
     | some filename => (chars ".iso").isSuffixOf filename
     | none => false)

/-- The layer scan of `getISOLayerDigest`, mirroring the Go loop: layers are
visited in order, and the first layer matching either rule is returned at
once (the loop `return`s inside the iteration). -/
def isoScan : List Descriptor → Option (List Char)
  | [] => none
  | layer :: rest => if isoLayerMatch layer then some layer.digest else isoScan rest

/-- The layer-assignment part of
`(*VirtualMediaBootConfigReconciler).getISOLayerDigest`
(`virtualmediabootconfig_controller.go`), given the final manifest's layer
list: the in-order scan, then the single-layer fallback guarded by
`firstLayer != "" && len(manifest.Layers) == 1`, else the error. -/
def getISOLayerDigest (layers : List Descriptor) : Except (List Char) (List Char) :=
  match isoScan layers with
  | some digest => .ok digest
  | none =>
    match layers with
    | [layer] =>
      if layer.digest = [] then .error (chars "no ISO layer found in image")
      else .ok layer.digest
    | _ => .error (chars "no ISO layer found in image")

end ISOLayer

section ConfigDrive

/-- Embedding of `ConfigDriveCacheEntry` from the config-drive cache source
(`src/unnamed/part_028`); timestamps are a monotone clock in `Nat`. -/
structure CacheEntry where
  data : List Nat
  secretResourceVersion : List Char
  timestamp : Nat
deriving DecidableEq

/-- The `map[string]*ConfigDriveCacheEntry` cache map, as an association
list whose order stands in for one Go map-iteration order. -/
abbrev EntryMap := List (List Char × CacheEntry)

/-- Go map read `c.cache[key]`. -/
def mapFind (key : List Char) : EntryMap → Option CacheEntry
  | [] => none
  | (k, e) :: rest => if k = key then some e else mapFind key rest

/-- Go `delete(c.cache, key)`. -/
def mapErase (key : List Char) : EntryMap → EntryMap
  | [] => []
  | (k, e) :: rest => if k = key then rest else (k, e) :: mapErase key rest

/-- Go map write `c.cache[key] = entry`. -/
def mapStore (key : List Char) (entry : CacheEntry) : EntryMap → EntryMap
  | [] => [(key, entry)]
  | (k, e0) :: rest =>
    if k = key then (key, entry) :: rest else (k, e0) :: mapStore key entry rest

/-- Embedding of `ConfigDriveCache` from `src/unnamed/part_028`; `currentSize` is the Go
`int64` byte accounting. -/
structure ConfigDriveCache where
  cache : EntryMap
  ttl : Nat
  maxSize : Int
  currentSize : Int
deriving DecidableEq

/-- Embedding of `NewConfigDriveCache`. -/
def newConfigDriveCache (ttl : Nat) (maxSize : Int) : ConfigDriveCache :=
  ⟨[], ttl, maxSize, 0⟩

/-- Total byte length of the live entries (the quantity the spec bounds by
`maxSize`). -/
def liveSize (m : EntryMap) : Int :=
  (m.map fun p => ((p.2.data.length : Int))).sum

/-- Embedding of `(*ConfigDriveCache).Get` at clock value `now`: absent, or older than
`ttl`, reads as a miss. -/
def ConfigDriveCache.get (c : ConfigDriveCache) (key : List Char) (now : Nat) :
    Option (List Nat) :=
  match mapFind key c.cache with
  | none => none
  | some entry => if now - entry.timestamp > c.ttl then none else some entry.data

/-- The oldest-entry scan of `(*ConfigDriveCache).evictOldest`: starting
from the first iterated entry, replace the candidate only on a strictly
earlier timestamp. -/
def findOldest (best : List Char × CacheEntry) : EntryMap → List Char × CacheEntry
  | [] => best
  | p :: rest => findOldest (if p.2.timestamp < best.2.timestamp then p else best) rest

/-- Embedding of `(*ConfigDriveCache).evictOldest`: removes the oldest-scan winner and
subtracts its byte length, unless its key is the empty string (the Go
`oldestKey != ""` guard, which also covers the empty map). -/
def ConfigDriveCache.evictOldest (c : ConfigDriveCache) : ConfigDriveCache :=
  match c.cache with
  | [] => c
  | p :: rest =>
    let oldest := findOldest p rest
    if oldest.1 = [] then c
    else
      match mapFind oldest.1 c.cache with
      | some entry =>
        { c with
          cache := mapErase oldest.1 c.cache
          currentSize := c.currentSize - (entry.data.length : Int) }
      | none => c

/-- The eviction loop of `(*ConfigDriveCache).Set`
(`for c.currentSize+newSize > c.maxSize && len(c.cache) > 0`), run with
fuel; `Set` supplies `len(c.cache)` as fuel, which is exactly the number of
iterations the Go loop can make when every key is non-empty (with an
empty-string key the Go loop would not terminate). -/
def setEvictLoop (newSize : Int) : Nat → ConfigDriveCache → ConfigDriveCache
  | 0, c => c
  | fuel + 1, c =>
    if c.currentSize + newSize > c.maxSize ∧ c.cache ≠ [] then
      setEvictLoop newSize fuel c.evictOldest
    else c

/-- Embedding of `(*ConfigDriveCache).Set` at clock value `now`: discount an overwritten
entry, evict until the new payload fits (or the map empties), then insert. -/
def ConfigDriveCache.set (c : ConfigDriveCache) (key : List Char) (data : List Nat)
    (secretResourceVersion : List Char) (now : Nat) : ConfigDriveCache :=
  let c :=
    match mapFind key c.cache with
    | some oldEntry =>
      { c with currentSize := c.currentSize - (oldEntry.data.length : Int) }
    | none => c
  let c := setEvictLoop (data.length : Int) c.cache.length c
  { c with
    cache := mapStore key ⟨data, secretResourceVersion, now⟩ c.cache
    currentSize := c.currentSize + (data.length : Int) }

/-- Embedding of `(*ConfigDriveCache).Delete`. -/
def ConfigDriveCache.del (c : ConfigDriveCache) (key : List Char) : ConfigDriveCache :=
  match mapFind key c.cache with
  | some entry =>
    { c with
      cache := mapErase key c.cache
      currentSize := c.currentSize - (entry.data.length : Int) }
  | none => c

/-- One pass of the `(*ConfigDriveCache).cleanup` sweep body over the map:
keeps the fresh entries and totals the bytes of the removed stale ones. -/
def sweepEntries (ttl now : Nat) : EntryMap → EntryMap × Int
  | [] => ([], 0)
  | (k, e) :: rest =>
    let (kept, freed) := sweepEntries ttl now rest
    if now - e.timestamp > ttl then (kept, freed + (e.data.length : Int))
    else ((k, e) :: kept, freed)

/-- One wake-up of the `(*ConfigDriveCache).cleanup` goroutine at clock
value `now`: removes every entry older than `ttl` and adjusts the size. -/
def ConfigDriveCache.cleanupSweep (c : ConfigDriveCache) (now : Nat) : ConfigDriveCache :=
  let (kept, freed) := sweepEntries c.ttl now c.cache
  { c with cache := kept, currentSize := c.currentSize - freed }

end ConfigDrive

/-! ## Theorems -/

section PolicyTheorems

/-- C3: with a non-empty allow-list, a domain is admitted iff it is an exact
(trimmed) member of that comma-separated list, whatever the block-list says;
with an empty allow-list and a non-empty block-list, admitted iff not a
member of the block-list; with neither configured, every domain is denied. -/
theorem isRegistryAllowed_policy (allowList blockList registry : List Char) :
    (allowList ≠ [] →
      (isRegistryAllowed allowList blockList registry = true ↔
        ∃ item ∈ goSplit ',' allowList, goTrimSpace item = registry)) ∧
    (allowList = [] → blockList ≠ [] →
      (isRegistryAllowed allowList blockList registry = true ↔
        ¬∃ item ∈ goSplit ',' blockList, goTrimSpace item = registry)) ∧
    (allowList = [] → blockList = [] →
      isRegistryAllowed allowList blockList registry = false) := by
  refine ⟨?_, ?_, ?_⟩
  · intro h
    simp [isRegistryAllowed, isInList, h, List.any_eq_true]
  · intro h1 h2
    simp [isRegistryAllowed, isInList, h1, h2, List.any_eq_true]
  · intro h1 h2
    simp [isRegistryAllowed, h1, h2]

/-- Witness for `isRegistryAllowed_policy` at concrete lists. -/
theorem isRegistryAllowed_policy_witness :
    isRegistryAllowed (chars "a.com,b.com") (chars "b.com") (chars "b.com") = true ∧
    isRegistryAllowed [] [] (chars "b.com") = false := by
  constructor
  · exact (isRegistryAllowed_policy (chars "a.com,b.com") (chars "b.com")
      (chars "b.com")).1 (by decide) |>.mpr ⟨chars "b.com", by decide, by decide⟩
  · exact (isRegistryAllowed_policy [] [] (chars "b.com")).2.2 rfl rfl

end PolicyTheorems

section AuthTheorems

/-- Storing under a key makes that key read back the stored info. -/
theorem cacheLookup_cacheStore_self (key : List Char) (info : RegistryInfo) :
    ∀ cache : RegistryCache, cacheLookup key (cacheStore key info cache) = some info := by
  intro cache
  induction cache with
  | nil => simp [cacheStore, cacheLookup]
  | cons p rest ih =>
    by_cases h : p.1 = key
    · simp [cacheStore, cacheLookup, h]
    · simpa [cacheStore, cacheLookup, h] using ih

/-- C9: a failed detection leaves the registry cache unchanged and returns
the error; a hit returns the cached info without probing; a successful
detection on a miss is stored, and afterwards any call for the same domain
returns the stored info with the cache unchanged, whatever its probe
would have answered. -/
theorem getOrDetectRegistry_cache_discipline (cache : RegistryCache)
    (registry repository : List Char) (probe : ProbeResult) :
    (∀ e, cacheLookup registry cache = none →
      detectRegistryAuth registry repository probe = .error e →
      getOrDetectRegistry cache registry repository probe = (.error e, cache)) ∧
    (∀ info, cacheLookup registry cache = none →
      detectRegistryAuth registry repository probe = .ok info →
      getOrDetectRegistry cache registry repository probe =
        (.ok info, cacheStore registry info cache)) ∧
    (∀ info, cacheLookup registry cache = some info →
      getOrDetectRegistry cache registry repository probe = (.ok info, cache)) ∧
    (∀ info repo2 probe2,
      getOrDetectRegistry (cacheStore registry info cache) registry repo2 probe2 =
        (.ok info, cacheStore registry info cache)) := by
  refine ⟨?_, ?_, ?_, ?_⟩
  · intro e hmiss herr
    simp [getOrDetectRegistry, hmiss, herr]
  · intro info hmiss hok
    simp [getOrDetectRegistry, hmiss, hok]
  · intro info hhit
    simp [getOrDetectRegistry, hhit]
  · intro info repo2 probe2
    simp [getOrDetectRegistry, cacheLookup_cacheStore_self]

/-- Witness for `getOrDetectRegistry_cache_discipline`: an unreachable
registry is not cached, and a successful detection is cached and reused. -/
theorem getOrDetectRegistry_cache_discipline_witness :
    getOrDetectRegistry [] (chars "r.io") (chars "repo")
        (.error (chars "dial tcp")) =
      (.error (chars "registry unreachable: dial tcp"), []) ∧
    getOrDetectRegistry [] (chars "r.io") (chars "repo") (.ok (200, [])) =
      (.ok ⟨chars "r.io", .authNone, [], []⟩,
        [(chars "r.io", ⟨chars "r.io", .authNone, [], []⟩)]) ∧
    getOrDetectRegistry [(chars "r.io", ⟨chars "r.io", .authNone, [], []⟩)]
        (chars "r.io") (chars "other") (.error (chars "down")) =
      (.ok ⟨chars "r.io", .authNone, [], []⟩,
        [(chars "r.io", ⟨chars "r.io", .authNone, [], []⟩)]) := by
  refine ⟨?_, ?_, ?_⟩
  · exact (getOrDetectRegistry_cache_discipline [] (chars "r.io") (chars "repo")
      (.error (chars "dial tcp"))).1 _ rfl rfl
  · exact (getOrDetectRegistry_cache_discipline [] (chars "r.io") (chars "repo")
      (.ok (200, []))).2.1 _ rfl rfl
  · exact (getOrDetectRegistry_cache_discipline
      [(chars "r.io", ⟨chars "r.io", .authNone, [], []⟩)]
      (chars "r.io") (chars "other") (.error (chars "down"))).2.2.1 _ rfl

/-- C10: a `401` probe answer whose `WWW-Authenticate` header starts with
`Bearer ` but holds no `realm="..."` parameter still detects successfully as
bearer auth with an empty token URL; that degenerate info is cached on a
miss; and the failure surfaces only when the bearer-token fetch against the
empty URL fails, as `401` `Authentication failed`. -/
theorem detect_bearer_without_realm (domain repository header : List Char)
    (cache : RegistryCache)
    (tokenFetch : List Char → Except (List Char) (List Char))
    (hb : (chars "Bearer ").isPrefixOf header = true)
    (hr : subIndex (chars "realm=\"") header = none) :
    extractTokenURL header repository = [] ∧
    detectRegistryAuth domain repository (.ok (401, header)) =
      .ok ⟨domain, .authBearer, [], []⟩ ∧
    (cacheLookup domain cache = none →
      getOrDetectRegistry cache domain repository (.ok (401, header)) =
        (.ok ⟨domain, .authBearer, [], []⟩,
          cacheStore domain ⟨domain, .authBearer, [], []⟩ cache)) ∧
    (∀ e, tokenFetch [] = .error e →
      handleAuthPhase ⟨domain, .authBearer, [], []⟩ tokenFetch =
        .respond 401 (chars "Authentication failed")) := by
  have hne : header ≠ [] := by
    intro h
    rw [h] at hb
    simp [List.isPrefixOf] at hb
  have hcat : chars "realm" ++ chars "=\"" = chars "realm=\"" := rfl
  have hparam : extractParam header (chars "realm") = [] := by
    simp only [extractParam, chars] at hr ⊢
    rw [show "realm".data ++ "=\"".data = "realm=\"".data from rfl, hr]
  have htok : extractTokenURL header repository = [] := by
    simp [extractTokenURL, hparam]
  have hdet : detectRegistryAuth domain repository (.ok (401, header)) =
      .ok ⟨domain, .authBearer, [], []⟩ := by
    simp [detectRegistryAuth, hne, hb, htok]
  refine ⟨htok, hdet, ?_, ?_⟩
  · intro hmiss
    simp [getOrDetectRegistry, hmiss, hdet]
  · intro e hfetch
    simp [handleAuthPhase, hfetch]

/-- Witness for `detect_bearer_without_realm` at a concrete challenge with a
`service` parameter but no realm. -/
theorem detect_bearer_without_realm_witness :
    detectRegistryAuth (chars "r.io") (chars "repo")
        (.ok (401, chars "Bearer service=\"r.io\"")) =
      .ok ⟨chars "r.io", .authBearer, [], []⟩ ∧
    handleAuthPhase ⟨chars "r.io", .authBearer, [], []⟩
        (fun _ => .error (chars "unsupported protocol scheme")) =
      .respond 401 (chars "Authentication failed") := by
  have h := detect_bearer_without_realm (chars "r.io") (chars "repo")
    (chars "Bearer service=\"r.io\"") []
    (fun _ => .error (chars "unsupported protocol scheme"))
    (by decide) (by decide)
  exact ⟨h.2.1, h.2.2.2 _ rfl⟩

end AuthTheorems

section GetTheorems

/-- A key outside the map reads as a miss. -/
theorem mapFind_eq_none_of_not_mem (key : List Char) :
    ∀ m : EntryMap, key ∉ m.map Prod.fst → mapFind key m = none := by
  intro m
  induction m with
  | nil => intro _; rfl
  | cons p rest ih =>
    intro h
    simp only [List.map_cons, List.mem_cons] at h
    push_neg at h
    have hne : ¬p.1 = key := fun hh => h.1 hh.symm
    simp [mapFind, hne, ih h.2]

/-- Reading a key after one cleanup sweep: present iff it was present and
fresh at the sweep's clock value (for a duplicate-free map, as Go maps are). -/
theorem mapFind_sweepEntries (ttl now : Nat) (key : List Char) :
    ∀ m : EntryMap, (m.map Prod.fst).Nodup →
      mapFind key (sweepEntries ttl now m).1 =
        match mapFind key m with
        | none => none
        | some e => if now - e.timestamp > ttl then none else some e := by
  intro m
  induction m with
  | nil => intro _; rfl
  | cons p rest ih =>
    intro hnd
    simp only [List.map_cons, List.nodup_cons] at hnd
    obtain ⟨hp, hrest⟩ := hnd
    obtain ⟨k, e⟩ := p
    by_cases hk : k = key
    · subst hk
      have hmiss : mapFind k rest = none :=
        mapFind_eq_none_of_not_mem k rest hp
      by_cases hstale : now - e.timestamp > ttl
      · simp [sweepEntries, mapFind, hstale, ih hrest, hmiss]
      · simp [sweepEntries, mapFind, hstale]
    · by_cases hstale : now - e.timestamp > ttl
      · simp [sweepEntries, mapFind, hstale, ih hrest, hk]
      · simp [sweepEntries, mapFind, hstale, ih hrest, hk]

/-- C8: `Get` misses exactly when the key is absent or the stored entry's
age exceeds `ttl` — even before any sweep ran — and otherwise returns the
stored payload; moreover running the background sweep first does not change
what `Get` answers at the same clock value. -/
theorem configDriveCache_get_semantics (c : ConfigDriveCache) (key : List Char)
    (now : Nat) (hnd : (c.cache.map Prod.fst).Nodup) :
    (c.get key now = none ↔
      mapFind key c.cache = none ∨
        ∃ e, mapFind key c.cache = some e ∧ now - e.timestamp > c.ttl) ∧
    (∀ e, mapFind key c.cache = some e → ¬now - e.timestamp > c.ttl →
      c.get key now = some e.data) ∧
    (c.cleanupSweep now).get key now = c.get key now := by
  refine ⟨?_, ?_, ?_⟩
  · match hfind : mapFind key c.cache with
    | none => simp [ConfigDriveCache.get, hfind]
    | some e =>
      by_cases hstale : now - e.timestamp > c.ttl
      · simp [ConfigDriveCache.get, hfind, hstale]
      · simp [ConfigDriveCache.get, hfind, hstale]
  · intro e hfind hfresh
    simp [ConfigDriveCache.get, hfind, hfresh]
  · have hcache : (c.cleanupSweep now).cache = (sweepEntries c.ttl now c.cache).1 := rfl
    have httl : (c.cleanupSweep now).ttl = c.ttl := rfl
    simp only [ConfigDriveCache.get, hcache, httl,
      mapFind_sweepEntries c.ttl now key c.cache hnd]
    match hfind : mapFind key c.cache with
    | none => simp
    | some e =>
      by_cases hstale : now - e.timestamp > c.ttl
      · simp [hstale]
      · simp [hstale]

/-- Witness for `configDriveCache_get_semantics`: a stored entry answers
its payload while fresh, and answers a miss once its age exceeds `ttl`,
also before any sweep removed it. -/
theorem configDriveCache_get_semantics_witness :
    (ConfigDriveCache.mk [(chars "k", ⟨[1, 2], chars "v1", 0⟩)] 10 100 2).get
        (chars "k") 5 = some [1, 2] ∧
    (ConfigDriveCache.mk [(chars "k", ⟨[1, 2], chars "v1", 0⟩)] 10 100 2).get
        (chars "k") 11 = none := by
  constructor
  · exact (configDriveCache_get_semantics
      (ConfigDriveCache.mk [(chars "k", ⟨[1, 2], chars "v1", 0⟩)] 10 100 2)
      (chars "k") 5 (by decide)).2.1 ⟨[1, 2], chars "v1", 0⟩ rfl (by decide)
  · exact (configDriveCache_get_semantics
      (ConfigDriveCache.mk [(chars "k", ⟨[1, 2], chars "v1", 0⟩)] 10 100 2)
      (chars "k") 11 (by decide)).1.mpr
      (Or.inr ⟨⟨[1, 2], chars "v1", 0⟩, rfl, by decide⟩)

end GetTheorems

section FetchTheorems

/-- C1 counterexample: the virtual-media `fetchContent` returns, as a
success, three bytes for a descriptor that declares five. -/
theorem fetchContentVirtualMedia_no_size_check :
    fetchContentVirtualMedia ⟨[], [], 5, [], none⟩ (.ok [1, 2, 3]) = .ok [1, 2, 3] ∧
    (([1, 2, 3].length : Int) ≠ (Descriptor.mk [] [] 5 [] none).size) := by
  exact ⟨rfl, by decide⟩

/-- C1 amended: the shared `fetchContent` of the UKI and PXE paths never
returns data of the wrong length as a success and fails with the exact
`size mismatch: expected N, got M` error; the virtual-media copy returns
whatever was read with no size comparison. -/
theorem fetchContent_size_check (desc : Descriptor) (readAll : ReadResult) :
    (∀ data, fetchContent desc readAll = .ok data → (data.length : Int) = desc.size) ∧
    (∀ data, readAll = .ok data → (data.length : Int) ≠ desc.size →
      fetchContent desc readAll =
        .error (chars "size mismatch: expected " ++ intToChars desc.size ++
          chars ", got " ++ intToChars (data.length : Int))) ∧
    (∀ data, fetchContentVirtualMedia desc (.ok data) = .ok data) := by
  refine ⟨?_, ?_, ?_⟩
  · intro data hok
    match readAll with
    | .error e => simp [fetchContent] at hok
    | .ok bytes =>
      by_cases hsz : (bytes.length : Int) ≠ desc.size
      · simp [fetchContent, hsz] at hok
      · push_neg at hsz
        simp [fetchContent, hsz] at hok
        rw [← hok]
        exact hsz
  · intro data hread hsz
    subst hread
    simp [fetchContent, hsz]
  · intro data
    rfl

/-- Witness for `fetchContent_size_check`: a three-byte read against a
declared size of three succeeds, and against a declared size of five fails
with `size mismatch: expected 5, got 3`. -/
theorem fetchContent_size_check_witness :
    ((([1, 2, 3] : List Nat).length : Int) = (Descriptor.mk [] [] 3 [] none).size) ∧
    fetchContent ⟨[], [], 5, [], none⟩ (.ok [1, 2, 3]) =
      .error (chars "size mismatch: expected 5, got 3") := by
  constructor
  · exact (fetchContent_size_check ⟨[], [], 3, [], none⟩ (.ok [1, 2, 3])).1 [1, 2, 3] rfl
  · have h := (fetchContent_size_check ⟨[], [], 5, [], none⟩ (.ok [1, 2, 3])).2.1
      [1, 2, 3] rfl (by decide)
    simpa using h

end FetchTheorems

section ISOTheorems

/-- The layer loop returns the digest of the first matching layer. -/
theorem isoScan_eq_find (layers : List Descriptor) :
    isoScan layers = (layers.find? isoLayerMatch).map Descriptor.digest := by
  induction layers with
  | nil => rfl
  | cons layer rest ih =>
    by_cases h : isoLayerMatch layer
    · simp [isoScan, List.find?, h]
    · simp [isoScan, List.find?, h, ih]

/-- C5 counterexample: a first layer carrying only the `.iso` file-name
annotation is selected over a later layer carrying the exact ISO media
type, so media-type matches are not preferred over annotation matches
across the whole list. -/
theorem getISOLayerDigest_order_counterexample :
    getISOLayerDigest
        [⟨chars "application/foo", chars "sha256:aaa", 0,
            [(chars "org.opencontainers.image.title", chars "boot.iso")], none⟩,
          ⟨mediaTypeISO, chars "sha256:bbb", 0, [], none⟩] =
      .ok (chars "sha256:aaa") ∧
    (Descriptor.mk mediaTypeISO (chars "sha256:bbb") 0 [] none).mediaType =
      mediaTypeISO ∧
    chars "sha256:aaa" ≠ chars "sha256:bbb" := by
  exact ⟨rfl, rfl, by decide⟩

/-- C5 amended: the layer list is scanned once in order and the first layer
matching either rule — exact ISO media type, or an
`org.opencontainers.image.title` annotation ending in `.iso`, at equal
priority — is assigned; when no layer matches, a sole layer with a
non-empty digest is assigned by default, and otherwise resolution fails
with `no ISO layer found in image`. -/
theorem getISOLayerDigest_semantics (layers : List Descriptor) :
    (∀ pre layer post, layers = pre ++ layer :: post →
      (∀ l ∈ pre, isoLayerMatch l = false) → isoLayerMatch layer = true →
      getISOLayerDigest layers = .ok layer.digest) ∧
    ((∀ l ∈ layers, isoLayerMatch l = false) →
      (∀ layer, layers = [layer] → layer.digest ≠ [] →
        getISOLayerDigest layers = .ok layer.digest) ∧
      (layers.length ≠ 1 →
        getISOLayerDigest layers = .error (chars "no ISO layer found in image"))) := by
  constructor
  · intro pre layer post hsplit hpre hmatch
    have hfind : layers.find? isoLayerMatch = some layer := by
      subst hsplit
      induction pre with
      | nil => simp [List.find?, hmatch]
      | cons q qs ih =>
        have hq : isoLayerMatch q = false := hpre q (by simp)
        have hqs : ∀ l ∈ qs, isoLayerMatch l = false := fun l hl =>
          hpre l (by simp [hl])
        simp [List.find?, hq, ih hqs]
    simp [getISOLayerDigest, isoScan_eq_find, hfind]
  · intro hnone
    have hfind : layers.find? isoLayerMatch = none :=
      List.find?_eq_none.mpr fun l hl => by simp [hnone l hl]
    constructor
    · intro layer hone hdig
      subst hone
      simp [getISOLayerDigest, isoScan_eq_find, hfind, hdig]
    · intro hlen
      match layers, hlen with
      | [], _ => rfl
      | [l], h => exact absurd rfl h
      | l1 :: l2 :: rest, _ =>
        simp [getISOLayerDigest, isoScan_eq_find, hfind]

/-- Witness for `getISOLayerDigest_semantics`: a two-layer manifest whose
second layer has the ISO media type resolves to that layer, and a two-layer
manifest with no matching layer fails. -/
theorem getISOLayerDigest_semantics_witness :
    getISOLayerDigest
        [⟨chars "application/foo", chars "sha256:aaa", 0, [], none⟩,
          ⟨mediaTypeISO, chars "sha256:bbb", 0, [], none⟩] =
      .ok (chars "sha256:bbb") ∧
    getISOLayerDigest
        [⟨chars "application/foo", chars "sha256:aaa", 0, [], none⟩,
          ⟨chars "application/bar", chars "sha256:bbb", 0, [], none⟩] =
      .error (chars "no ISO layer found in image") := by
  constructor
  · exact (getISOLayerDigest_semantics _).1
      [⟨chars "application/foo", chars "sha256:aaa", 0, [], none⟩]
      ⟨mediaTypeISO, chars "sha256:bbb", 0, [], none⟩ [] rfl
      (by intro l hl; simp at hl; subst hl; decide) (by decide)
  · exact ((getISOLayerDigest_semantics _).2
      (by intro l hl; simp at hl; rcases hl with h | h <;> subst h <;> decide)).2
      (by decide)

end ISOTheorems

section HttpBootPathTheorems

/-- C7 counterexample: a path whose final segment lacks the `.efi` suffix
still parses successfully — the suffix is optional, not required — and the
forwarded digest is `sha256:` plus the hex portion. -/
theorem parseHttpBootImagePath_no_efi_needed :
    parseHttpBootImagePath (chars "/httpboot/r.io/repo/sha256-abc") =
      some ⟨chars "r.io/repo", chars "r.io", chars "repo", chars "sha256:abc"⟩ ∧
    (chars ".efi").isSuffixOf (chars "sha256-abc") = false := by
  exact ⟨by decide, by decide⟩

/-- C7 amended: parsing a `/httpboot/` path fails exactly when the path
after the prefix has fewer than two segments or the final segment — after
stripping an optional `.efi` suffix — does not start with `sha256-`; on
success the forwarded layer digest is `sha256:` followed by the hex portion
of the final segment. -/
theorem parseHttpBootImagePath_semantics (path : List Char) :
    ((parseHttpBootImagePath path).isSome ↔
      2 ≤ (goSplit '/' (goTrimStart path (chars "/httpboot/"))).length ∧
        (chars "sha256-").isPrefixOf
          (goTrimSuffix
            (((goSplit '/' (goTrimStart path (chars "/httpboot/"))).getLast?).getD [])
            (chars ".efi")) = true) ∧
    (∀ details, parseHttpBootImagePath path = some details →
      details.layerDigest =
        chars "sha256:" ++
          goTrimStart
            (goTrimSuffix
              (((goSplit '/' (goTrimStart path (chars "/httpboot/"))).getLast?).getD [])
              (chars ".efi")) (chars "sha256-")) := by
  have hsucc : ¬(goSplit '/' (goTrimStart path (chars "/httpboot/"))).length < 2 →
      (chars "sha256-").isPrefixOf
        (goTrimSuffix
          (((goSplit '/' (goTrimStart path (chars "/httpboot/"))).getLast?).getD [])
          (chars ".efi")) = true →
      parseHttpBootImagePath path =
        some
          ⟨List.intercalate (chars "/")
              (goSplit '/' (goTrimStart path (chars "/httpboot/"))).dropLast,
            extractRegistryDomain
              (List.intercalate (chars "/")
                (goSplit '/' (goTrimStart path (chars "/httpboot/"))).dropLast),
            extractRepository
              (List.intercalate (chars "/")
                (goSplit '/' (goTrimStart path (chars "/httpboot/"))).dropLast)
              (extractRegistryDomain
                (List.intercalate (chars "/")
                  (goSplit '/' (goTrimStart path (chars "/httpboot/"))).dropLast)),
            chars "sha256:" ++
              goTrimStart
                (goTrimSuffix
                  (((goSplit '/'
                    (goTrimStart path (chars "/httpboot/"))).getLast?).getD [])
                  (chars ".efi")) (chars "sha256-")⟩ := by
    intro hlen hpre
    simp [parseHttpBootImagePath, hlen, hpre]
  constructor
  · by_cases hlen :
      (goSplit '/' (goTrimStart path (chars "/httpboot/"))).length < 2
    · have hnot : ¬2 ≤ (goSplit '/' (goTrimStart path (chars "/httpboot/"))).length := by
        omega
      simp [parseHttpBootImagePath, hlen, hnot]
    · have h2 : 2 ≤ (goSplit '/' (goTrimStart path (chars "/httpboot/"))).length := by
        omega
      by_cases hpre : (chars "sha256-").isPrefixOf
        (goTrimSuffix
          (((goSplit '/' (goTrimStart path (chars "/httpboot/"))).getLast?).getD [])
          (chars ".efi")) = true
      · rw [hsucc hlen hpre]
        simp [h2, hpre]
      · simp [parseHttpBootImagePath, hlen, hpre]
  · intro details hsome
    by_cases hlen :
      (goSplit '/' (goTrimStart path (chars "/httpboot/"))).length < 2
    · simp [parseHttpBootImagePath, hlen] at hsome
    · by_cases hpre : (chars "sha256-").isPrefixOf
        (goTrimSuffix
          (((goSplit '/' (goTrimStart path (chars "/httpboot/"))).getLast?).getD [])
          (chars ".efi")) = true
      · rw [hsucc hlen hpre] at hsome
        rw [← Option.some_inj.mp hsome]
      · simp [parseHttpBootImagePath, hlen, hpre] at hsome

/-- Witness for `parseHttpBootImagePath_semantics`: a well-formed UKI boot
path parses and its digest is forwarded in `sha256:` form; a one-segment
path does not parse. -/
theorem parseHttpBootImagePath_semantics_witness :
    (parseHttpBootImagePath (chars "/httpboot/r.io/repo/sha256-abc.efi")).isSome =
      true ∧
    (parseHttpBootImagePath (chars "/httpboot/onlyone")).isSome = false := by
  constructor
  · exact (parseHttpBootImagePath_semantics
      (chars "/httpboot/r.io/repo/sha256-abc.efi")).1.mpr ⟨by decide, by decide⟩
  · have h := (parseHttpBootImagePath_semantics (chars "/httpboot/onlyone")).1
    rw [Bool.eq_false_iff]
    intro hsome
    exact absurd (h.mp (by simp [hsome])) (by decide)

end HttpBootPathTheorems

section UKIRefTheorems

/-- Lemma: `lastIndexOf` misses exactly when the character does not occur. -/
theorem lastIndexOf_eq_none_iff (c : Char) :
    ∀ s : List Char, lastIndexOf c s = none ↔ c ∉ s := by
  intro s
  induction s with
  | nil => simp [lastIndexOf]
  | cons x rest ih =>
    cases h : lastIndexOf c rest with
    | some k =>
      have : c ∈ rest := by
        by_contra hmem
        rw [ih.mpr hmem] at h
        exact Option.noConfusion h
      simp [lastIndexOf, h, this]
    | none =>
      have hmem : c ∉ rest := ih.mp h
      by_cases hx : x = c
      · simp [lastIndexOf, h, hx]
      · have hx2 : ¬c = x := fun hh => hx hh.symm
        simp [lastIndexOf, h, hx, hx2, hmem]

/-- Lemma: `lastIndexOf` finds position `i` exactly when the character sits at `i`
and nowhere later. -/
theorem lastIndexOf_eq_some_iff (c : Char) :
    ∀ (s : List Char) (i : Nat), lastIndexOf c s = some i ↔
      (s.get? i = some c ∧ ∀ j, i < j → s.get? j ≠ some c) := by
  intro s
  induction s with
  | nil => intro i; simp [lastIndexOf]
  | cons x rest ih =>
    intro i
    cases h : lastIndexOf c rest with
    | some k =>
      have hk := (ih k).mp h
      constructor
      · intro hl
        simp only [lastIndexOf, h] at hl
        injection hl with hl
        subst hl
        refine ⟨by simpa using hk.1, ?_⟩
        intro j hj
        match j, hj with
        | j + 1, hj =>
          simpa using hk.2 j (by omega)
      · rintro ⟨h1, h2⟩
        simp only [lastIndexOf, h, Option.some.injEq]
        cases i with
        | zero =>
          exfalso
          exact h2 (k + 1) (by omega) (by simpa using hk.1)
        | succ m =>
          have hm : lastIndexOf c rest = some m :=
            (ih m).mpr ⟨by simpa using h1,
              fun j hj => by simpa using h2 (j + 1) (by omega)⟩
          rw [h] at hm
          injection hm with hm
          omega
    | none =>
      have hmem : c ∉ rest := (lastIndexOf_eq_none_iff c rest).mp h
      have hnot : ∀ j : Nat, rest.get? j ≠ some c := by
        intro j hj
        exact hmem (List.get?_mem hj)
      by_cases hx : x = c
      · subst hx
        constructor
        · intro hl
          simp only [lastIndexOf, h, if_true] at hl
          injection hl with hl
          subst hl
          refine ⟨by simp, ?_⟩
          intro j hj
          match j, hj with
          | j + 1, _ => simpa using hnot j
        · rintro ⟨h1, h2⟩
          simp only [lastIndexOf, h, if_true]
          cases i with
          | zero => rfl
          | succ m =>
            exfalso
            exact hnot m (by simpa using h1)
      · constructor
        · intro hl
          simp [lastIndexOf, h, hx] at hl
        · rintro ⟨h1, h2⟩
          exfalso
          cases i with
          | zero =>
            simp only [List.get?_cons_zero, Option.some.injEq] at h1
            exact hx h1
          | succ m =>
            exact hnot m (by simpa using h1)

/-- The value of `base` with a trailing `:tag` removed, as `parseOCIReferenceForUKI`
computes the repository from the half before `@`. -/
def stripTag (base : List Char) : List Char :=
  match lastTagSeparatorIndex base with
  | some tagSep => base.take tagSep
  | none => base

/-- C6: the tag separator is exactly a `:` with no later `:` or `/`; with a
`@` present, the reference parses to the base minus any trailing tag (and
errors only on an empty base, digest half or repository); without `@` it
parses to the part before the tag separator (and errors when the separator,
repository or tag is missing); and the claim's concrete examples. -/
theorem parseOCIReferenceForUKI_spec :
    (∀ (ref : List Char) (i : Nat), lastTagSeparatorIndex ref = some i ↔
      (ref.get? i = some ':' ∧
        ∀ j, i < j → ref.get? j ≠ some ':' ∧ ref.get? j ≠ some '/')) ∧
    (∀ image : List Char, (goCut '@' image).2 ≠ none ↔ '@' ∈ image) ∧
    (∀ image base digest, goCut '@' image = (base, some digest) →
      (parseOCIReferenceForUKI image = none ↔
        base = [] ∨ digest = [] ∨ stripTag base = []) ∧
      (∀ r, parseOCIReferenceForUKI image = some r →
        r = (stripTag base, base ++ '@' :: digest))) ∧
    (∀ image : List Char, (goCut '@' image).2 = none →
      (parseOCIReferenceForUKI image = none ↔
        lastTagSeparatorIndex image = none ∨
          ∃ tagSep, lastTagSeparatorIndex image = some tagSep ∧
            (image.take tagSep = [] ∨ image.drop (tagSep + 1) = [])) ∧
      (∀ r, parseOCIReferenceForUKI image = some r →
        ∃ tagSep, lastTagSeparatorIndex image = some tagSep ∧
          r = (image.take tagSep, image))) ∧
    parseOCIReferenceForUKI (chars "myregistry:5000/repo/image:v1.0") =
      some (chars "myregistry:5000/repo/image",
        chars "myregistry:5000/repo/image:v1.0") ∧
    parseOCIReferenceForUKI (chars "repo/image:v1.0@sha256:deadbeef") =
      some (chars "repo/image", chars "repo/image:v1.0@sha256:deadbeef") ∧
    parseOCIReferenceForUKI (chars "repo/image") = none ∧
    parseOCIReferenceForUKI (chars "repo/image:") = none ∧
    parseOCIReferenceForUKI (chars "repo/image@") = none := by
  refine ⟨?_, ?_, ?_, ?_, by decide, by decide, by decide, by decide, by decide⟩
  · intro ref i
    unfold lastTagSeparatorIndex
    cases hc : lastIndexOf ':' ref with
    | none =>
      have hmem : ':' ∉ ref := (lastIndexOf_eq_none_iff ':' ref).mp hc
      constructor
      · intro hl
        exact Option.noConfusion hl
      · rintro ⟨h1, _⟩
        exact (hmem (List.get?_mem h1)).elim
    | some cIdx =>
      have hcs := (lastIndexOf_eq_some_iff ':' ref cIdx).mp hc
      cases hs : lastIndexOf '/' ref with
      | none =>
        have hsmem : '/' ∉ ref := (lastIndexOf_eq_none_iff '/' ref).mp hs
        simp only [Option.some.injEq]
        constructor
        · rintro rfl
          refine ⟨hcs.1, fun j hj => ⟨hcs.2 j hj, ?_⟩⟩
          intro hh
          exact hsmem (List.get?_mem hh)
        · rintro ⟨h1, h2⟩
          have : lastIndexOf ':' ref = some i :=
            (lastIndexOf_eq_some_iff ':' ref i).mpr
              ⟨h1, fun j hj => (h2 j hj).1⟩
          rw [hc] at this
          injection this
      | some sIdx =>
        have hss := (lastIndexOf_eq_some_iff '/' ref sIdx).mp hs
        show (if cIdx > sIdx then some cIdx else none) = some i ↔ _
        by_cases hgt : cIdx > sIdx
        · simp only [hgt, if_true, Option.some.injEq]
          constructor
          · rintro rfl
            refine ⟨hcs.1, fun j hj => ⟨hcs.2 j hj, ?_⟩⟩
            exact hss.2 j (by omega)
          · rintro ⟨h1, h2⟩
            have hcol : lastIndexOf ':' ref = some i :=
              (lastIndexOf_eq_some_iff ':' ref i).mpr
                ⟨h1, fun j hj => (h2 j hj).1⟩
            rw [hc] at hcol
            exact Option.some_inj.mp hcol
        · rw [if_neg hgt]
          constructor
          · intro hl
            exact Option.noConfusion hl
          · rintro ⟨h1, h2⟩
            exfalso
            have hieq : cIdx = i := by
              have hcol : lastIndexOf ':' ref = some i :=
                (lastIndexOf_eq_some_iff ':' ref i).mpr
                  ⟨h1, fun j hj => (h2 j hj).1⟩
              rw [hc] at hcol
              exact Option.some_inj.mp hcol
            rcases Nat.lt_or_ge cIdx sIdx with hlt | hge
            · exact (h2 sIdx (by omega)).2 hss.1
            · have hseq : sIdx = cIdx := by omega
              have hbad : (some ':' : Option Char) = some '/' :=
                hcs.1.symm.trans (hseq ▸ hss.1)
              exact absurd hbad (by decide)
  · intro image
    induction image with
    | nil => simp [goCut]
    | cons x rest ih =>
      by_cases hx : x = '@'
      · simp [goCut, hx]
      · have hx2 : ¬('@' = x) := fun hh => hx hh.symm
        simpa [goCut, hx, hx2] using ih
  · intro image base digest hcut
    have himg : parseOCIReferenceForUKI image =
        if base = [] ∨ digest = [] then none
        else if stripTag base = [] then none
        else some (stripTag base, base ++ '@' :: digest) := by
      unfold parseOCIReferenceForUKI
      rw [hcut]
      rfl
    refine ⟨?_, ?_⟩
    · rw [himg]
      by_cases h1 : base = [] ∨ digest = []
      · simp only [h1, if_true, true_iff]
        tauto
      · by_cases h2 : stripTag base = []
        · simp only [h1, if_false, h2, if_true, true_iff]
          tauto
        · simp only [h1, if_false, h2]
          constructor
          · intro hh
            exact Option.noConfusion hh
          · intro hh
            tauto
    · intro r hr
      rw [himg] at hr
      by_cases h1 : base = [] ∨ digest = []
      · simp [h1] at hr
      · by_cases h2 : stripTag base = []
        · simp [h1, h2] at hr
        · simp only [h1, if_false, h2, Option.some.injEq] at hr
          exact hr.symm
  · intro image hcut
    have hcutEq : goCut '@' image = ((goCut '@' image).1, none) := by
      rw [Prod.ext_iff]
      exact ⟨rfl, hcut⟩
    have himg : parseOCIReferenceForUKI image =
        match lastTagSeparatorIndex image with
        | none => none
        | some tagSep =>
          if image.take tagSep = [] ∨ image.drop (tagSep + 1) = [] then none
          else some (image.take tagSep, image) := by
      unfold parseOCIReferenceForUKI
      rw [hcutEq]
    refine ⟨?_, ?_⟩
    · rw [himg]
      cases hts : lastTagSeparatorIndex image with
      | none => simp
      | some tagSep =>
        by_cases hre : image.take tagSep = [] ∨ image.drop (tagSep + 1) = []
        · simp only [hre, if_true, true_iff]
          exact Or.inr ⟨tagSep, rfl, hre⟩
        · simp only [hre, if_false]
          constructor
          · intro hh
            exact Option.noConfusion hh
          · rintro (hh | ⟨t, ht, hres⟩)
            · exact Option.noConfusion hh
            · injection ht with ht
              subst ht
              exact absurd hres hre
    · intro r hr
      rw [himg] at hr
      cases hts : lastTagSeparatorIndex image with
      | none => rw [hts] at hr; exact Option.noConfusion hr
      | some tagSep =>
        rw [hts] at hr
        by_cases hre : image.take tagSep = [] ∨ image.drop (tagSep + 1) = []
        · simp only [hre, if_true] at hr
          exact Option.noConfusion hr
        · simp only [hre, if_false] at hr
          injection hr with hr
          exact ⟨tagSep, rfl, hr.symm⟩

/-- Witness for `parseOCIReferenceForUKI_spec` at a concrete digest
reference. -/
theorem parseOCIReferenceForUKI_spec_witness :
    (chars "repo/image", chars "repo/image@sha256:deadbeef") =
      (stripTag (chars "repo/image"),
        chars "repo/image" ++ '@' :: chars "sha256:deadbeef") := by
  exact (parseOCIReferenceForUKI_spec.2.2.1 (chars "repo/image@sha256:deadbeef")
    (chars "repo/image") (chars "sha256:deadbeef") (by decide)).2 _ (by decide)

end UKIRefTheorems

section ArchSelectionTheorems

/-- C4: for index entries with non-empty digests, the PXE target-manifest
selection runs the legacy `cname`/`architecture` annotation pass first and
the structured platform pass second, the first matching entry winning, and
fails with the architecture error when neither pass matches; the UKI
`findManifestByArchitecture` is the structured pass. -/
theorem selectTargetManifest_two_passes (entries : List Descriptor)
    (arch : List Char) (hwf : ∀ e ∈ entries, e.digest ≠ []) :
    (selectTargetManifestRes entries arch =
      match entries.find? (cnameArchMatch arch) with
      | some e => .ok e
      | none =>
        match entries.find? (platformArchMatch arch) with
        | some e => .ok e
        | none =>
          .error (chars "failed to find target manifest with architecture " ++
            arch)) ∧
    findManifestByArchitecture entries arch =
      entries.find? (platformArchMatch arch) := by
  refine ⟨?_, rfl⟩
  cases hA : entries.find? (cnameArchMatch arch) with
  | some e =>
    have hdig : e.digest ≠ [] := hwf e (List.mem_of_find?_eq_some hA)
    simp [selectTargetManifestRes, selectTargetManifest, hA, hdig]
  | none =>
    cases hB : entries.find? (platformArchMatch arch) with
    | some e =>
      have hdig : e.digest ≠ [] := hwf e (List.mem_of_find?_eq_some hB)
      simp [selectTargetManifestRes, selectTargetManifest, hA, hB,
        zeroDescriptor, hdig]
    | none =>
      simp [selectTargetManifestRes, selectTargetManifest, hA, hB,
        zeroDescriptor]

/-- Witness for `selectTargetManifest_two_passes`: an amd64/arm64 platform
index resolves arm64 to the arm64 entry in either order, and an absent
architecture fails. -/
theorem selectTargetManifest_two_passes_witness :
    selectTargetManifestRes
        [⟨[], chars "sha256:1111", 0, [], some ⟨chars "amd64"⟩⟩,
          ⟨[], chars "sha256:2222", 0, [], some ⟨chars "arm64"⟩⟩]
        (chars "arm64") =
      .ok ⟨[], chars "sha256:2222", 0, [], some ⟨chars "arm64"⟩⟩ ∧
    selectTargetManifestRes
        [⟨[], chars "sha256:2222", 0, [], some ⟨chars "arm64"⟩⟩,
          ⟨[], chars "sha256:1111", 0, [], some ⟨chars "amd64"⟩⟩]
        (chars "arm64") =
      .ok ⟨[], chars "sha256:2222", 0, [], some ⟨chars "arm64"⟩⟩ ∧
    selectTargetManifestRes
        [⟨[], chars "sha256:1111", 0, [], some ⟨chars "amd64"⟩⟩,
          ⟨[], chars "sha256:2222", 0, [], some ⟨chars "arm64"⟩⟩]
        (chars "ppc64le") =
      .error (chars "failed to find target manifest with architecture ppc64le") := by
  refine ⟨?_, ?_, ?_⟩
  · exact ((selectTargetManifest_two_passes
      [⟨[], chars "sha256:1111", 0, [], some ⟨chars "amd64"⟩⟩,
        ⟨[], chars "sha256:2222", 0, [], some ⟨chars "arm64"⟩⟩]
      (chars "arm64") (by decide)).1).trans rfl
  · exact ((selectTargetManifest_two_passes
      [⟨[], chars "sha256:2222", 0, [], some ⟨chars "arm64"⟩⟩,
        ⟨[], chars "sha256:1111", 0, [], some ⟨chars "amd64"⟩⟩]
      (chars "arm64") (by decide)).1).trans rfl
  · exact ((selectTargetManifest_two_passes
      [⟨[], chars "sha256:1111", 0, [], some ⟨chars "amd64"⟩⟩,
        ⟨[], chars "sha256:2222", 0, [], some ⟨chars "arm64"⟩⟩]
      (chars "ppc64le") (by decide)).1).trans rfl

end ArchSelectionTheorems

section SetTheorems

/-- A miss means no binding carries the key. -/
theorem mapFind_eq_none_iff (key : List Char) :
    ∀ m : EntryMap, mapFind key m = none ↔ ∀ p ∈ m, p.1 ≠ key := by
  intro m
  induction m with
  | nil => simp [mapFind]
  | cons p rest ih =>
    by_cases h : p.1 = key
    · constructor
      · intro hn
        exfalso
        simp [mapFind, h] at hn
      · intro hall
        exact absurd h (hall p (List.mem_cons_self _ _))
    · simp only [mapFind, h, if_false, List.mem_cons]
      constructor
      · intro hn q hq
        rcases hq with rfl | hq
        · exact h
        · exact (ih.mp hn) q hq
      · intro hall
        exact ih.mpr fun q hq => hall q (Or.inr hq)

/-- A key that appears in the map is found. -/
theorem mapFind_isSome_of_mem (key : List Char) (e : CacheEntry) :
    ∀ m : EntryMap, (key, e) ∈ m → ∃ e2, mapFind key m = some e2 := by
  intro m
  induction m with
  | nil => intro h; simp at h
  | cons p rest ih =>
    intro h
    by_cases hp : p.1 = key
    · exact ⟨p.2, by simp [mapFind, hp]⟩
    · rcases List.mem_cons.mp h with rfl | h2
      · exact absurd rfl hp
      · obtain ⟨e2, he2⟩ := ih h2
        exact ⟨e2, by simp [mapFind, hp, he2]⟩

/-- Erasing the binding that `mapFind` sees removes exactly its bytes and
one list element, and only drops bindings. -/
theorem mapErase_of_find (key : List Char) :
    ∀ (m : EntryMap) (e : CacheEntry), mapFind key m = some e →
      liveSize (mapErase key m) = liveSize m - (e.data.length : Int) ∧
      (mapErase key m).length + 1 = m.length ∧
      ∀ p ∈ mapErase key m, p ∈ m := by
  intro m
  induction m with
  | nil => intro e h; exact Option.noConfusion h
  | cons p rest ih =>
    intro e h
    by_cases hp : p.1 = key
    · simp only [mapFind, hp, if_true, Option.some.injEq] at h
      subst h
      refine ⟨?_, by simp [mapErase, hp], fun q hq => ?_⟩
      · simp [mapErase, hp, liveSize]
      · simp only [mapErase, hp, if_true] at hq
        exact List.mem_cons_of_mem p hq
    · simp only [mapFind, hp, if_false] at h
      obtain ⟨h1, h2, h3⟩ := ih e h
      refine ⟨?_, ?_, fun q hq => ?_⟩
      · simp only [mapErase, hp, if_false, liveSize, List.map_cons,
          List.sum_cons] at h1 ⊢
        omega
      · simp only [mapErase, hp, if_false, List.length_cons]
        omega
      · simp only [mapErase, hp, if_false, List.mem_cons] at hq
        rcases hq with rfl | hq
        · exact List.mem_cons_self _ _
        · exact List.mem_cons_of_mem p (h3 q hq)

/-- The oldest-entry scan answers an element of the map (or the seed). -/
theorem findOldest_mem :
    ∀ (rest : EntryMap) (best : List Char × CacheEntry),
      findOldest best rest ∈ best :: rest := by
  intro rest
  induction rest with
  | nil => intro best; simp [findOldest]
  | cons p ps ih =>
    intro best
    have h := ih (if p.2.timestamp < best.2.timestamp then p else best)
    by_cases hc : p.2.timestamp < best.2.timestamp
    · rw [if_pos hc] at h
      rcases List.mem_cons.mp h with h | h
      · simp [findOldest, hc, h]
      · simp [findOldest, hc, List.mem_cons_of_mem, h]
    · rw [if_neg hc] at h
      rcases List.mem_cons.mp h with h | h
      · simp [findOldest, hc, h]
      · simp [findOldest, hc, List.mem_cons_of_mem, h]

/-- Bytes of live entries are never negative. -/
theorem liveSize_nonneg : ∀ m : EntryMap, 0 ≤ liveSize m := by
  intro m
  refine List.sum_nonneg ?_
  intro x hx
  simp only [List.mem_map] at hx
  obtain ⟨p, _, rfl⟩ := hx
  exact Int.ofNat_nonneg _

/-- Lemma: `evictOldest` on a non-empty map with non-empty keys keeps the size
accounting exact, removes exactly one binding, and changes nothing else. -/
theorem evictOldest_spec (c : ConfigDriveCache) (hne : c.cache ≠ [])
    (hkeys : ∀ p ∈ c.cache, p.1 ≠ ([] : List Char))
    (hacc : c.currentSize = liveSize c.cache) :
    c.evictOldest.currentSize = liveSize c.evictOldest.cache ∧
    c.evictOldest.cache.length + 1 = c.cache.length ∧
    (∀ p ∈ c.evictOldest.cache, p ∈ c.cache) ∧
    c.evictOldest.ttl = c.ttl ∧ c.evictOldest.maxSize = c.maxSize := by
  obtain ⟨p, rest, hc⟩ : ∃ p rest, c.cache = p :: rest := by
    match hcc : c.cache with
    | [] => exact absurd hcc hne
    | q :: qs => exact ⟨q, qs, rfl⟩
  have hold : findOldest p rest ∈ c.cache := by
    rw [hc]; exact findOldest_mem rest p
  have hkey : (findOldest p rest).1 ≠ [] := hkeys _ hold
  obtain ⟨e2, he2⟩ := mapFind_isSome_of_mem (findOldest p rest).1
    (findOldest p rest).2 c.cache (by simpa using hold)
  obtain ⟨h1, h2, h3⟩ := mapErase_of_find (findOldest p rest).1 c.cache e2 he2
  have hev : c.evictOldest =
      { c with
        cache := mapErase (findOldest p rest).1 c.cache
        currentSize := c.currentSize - (e2.data.length : Int) } := by
    unfold ConfigDriveCache.evictOldest
    split
    · rename_i heq
      rw [hc] at heq
      exact absurd heq (List.cons_ne_nil p rest)
    · rename_i p2 rest2 heq
      rw [hc] at heq
      injection heq with heq1 heq2
      subst heq1
      subst heq2
      rw [if_neg (by simpa using hkey)]
      rw [he2]
  rw [hev]
  refine ⟨?_, ?_, ?_, rfl, rfl⟩
  · show c.currentSize - (e2.data.length : Int) =
      liveSize (mapErase (findOldest p rest).1 c.cache)
    rw [hacc, h1]
  · exact h2
  · exact h3

/-- The `Set` eviction loop with enough fuel: accounting stays exact, the
map only shrinks, and the loop exits only when the payload fits or the map
is empty. -/
theorem setEvictLoop_spec (newSize : Int) :
    ∀ (fuel : Nat) (c : ConfigDriveCache), c.cache.length ≤ fuel →
      c.currentSize = liveSize c.cache →
      (∀ p ∈ c.cache, p.1 ≠ ([] : List Char)) →
      (setEvictLoop newSize fuel c).currentSize =
        liveSize (setEvictLoop newSize fuel c).cache ∧
      (∀ p ∈ (setEvictLoop newSize fuel c).cache, p ∈ c.cache) ∧
      ((setEvictLoop newSize fuel c).currentSize + newSize ≤ c.maxSize ∨
        (setEvictLoop newSize fuel c).cache = []) ∧
      (setEvictLoop newSize fuel c).ttl = c.ttl ∧
      (setEvictLoop newSize fuel c).maxSize = c.maxSize := by
  intro fuel
  induction fuel with
  | zero =>
    intro c hlen hacc hkeys
    have hcache : c.cache = [] := List.length_eq_zero.mp (Nat.le_zero.mp hlen)
    exact ⟨hacc, fun p hp => hp, Or.inr hcache, rfl, rfl⟩
  | succ fuel ih =>
    intro c hlen hacc hkeys
    by_cases hcond : c.currentSize + newSize > c.maxSize ∧ c.cache ≠ []
    · have hstep : setEvictLoop newSize (fuel + 1) c =
          if c.currentSize + newSize > c.maxSize ∧ c.cache ≠ [] then
            setEvictLoop newSize fuel c.evictOldest
          else c := rfl
      have hloop : setEvictLoop newSize (fuel + 1) c =
          setEvictLoop newSize fuel c.evictOldest := by
        rw [hstep, if_pos hcond]
      obtain ⟨e1, e2, e3, e4, e5⟩ :=
        evictOldest_spec c hcond.2 hkeys hacc
      have hlen2 : c.evictOldest.cache.length ≤ fuel := by omega
      obtain ⟨i1, i2, i3, i4, i5⟩ := ih c.evictOldest hlen2 e1
        (fun p hp => hkeys p (e3 p hp))
      rw [hloop]
      refine ⟨i1, fun p hp => e3 p (i2 p hp), ?_, i4.trans e4, i5.trans e5⟩
      rcases i3 with h | h
      · exact Or.inl (by rw [← e5]; exact h)
      · exact Or.inr h
    · have hstep : setEvictLoop newSize (fuel + 1) c =
          if c.currentSize + newSize > c.maxSize ∧ c.cache ≠ [] then
            setEvictLoop newSize fuel c.evictOldest
          else c := rfl
      have hloop : setEvictLoop newSize (fuel + 1) c = c := by
        rw [hstep, if_neg hcond]
      rw [hloop]
      refine ⟨hacc, fun p hp => hp, ?_, rfl, rfl⟩
      rw [not_and_or] at hcond
      rcases hcond with h | h
      · exact Or.inl (by omega)
      · exact Or.inr (not_not.mp h)

/-- Writing a fresh key appends the binding. -/
theorem mapStore_fresh (key : List Char) (entry : CacheEntry) :
    ∀ m : EntryMap, (∀ p ∈ m, p.1 ≠ key) →
      mapStore key entry m = m ++ [(key, entry)] := by
  intro m
  induction m with
  | nil => intro _; rfl
  | cons p rest ih =>
    intro h
    have hp : ¬p.1 = key := h p (List.mem_cons_self p rest)
    simp only [mapStore, hp, if_false, List.cons_append, List.cons.injEq,
      true_and]
    exact ih fun q hq => h q (List.mem_cons_of_mem p hq)

/-- Appending one binding adds its bytes. -/
theorem liveSize_append_single (m : EntryMap) (key : List Char)
    (entry : CacheEntry) :
    liveSize (m ++ [(key, entry)]) = liveSize m + (entry.data.length : Int) := by
  simp [liveSize]

/-- The cache invariant the spec states: exact byte accounting, total bytes
within `maxSize`, and (needed for the Go eviction loop to make progress)
no empty-string key. -/
def CacheInv (c : ConfigDriveCache) : Prop :=
  c.currentSize = liveSize c.cache ∧ liveSize c.cache ≤ c.maxSize ∧
    ∀ p ∈ c.cache, p.1 ≠ ([] : List Char)

/-- C2 counterexample: `Set` inserts even when eviction cannot make the
payload fit.  With `maxSize = 10`, inserting a 20-byte payload into the
empty cache leaves 20 live bytes; and with payloads 6, 4 and 8 (each under
`maxSize`), overwriting key `a` double-subtracts the old entry and leaves
12 live bytes — both exceed the bound the claim states. -/
theorem configDriveCache_set_exceeds_bound :
    liveSize ((newConfigDriveCache 100 10).set (chars "x")
        (List.replicate 20 0) (chars "v") 0).cache = 20 ∧
    liveSize ((((newConfigDriveCache 100 10).set (chars "a")
        (List.replicate 6 0) (chars "v") 0).set (chars "b")
        (List.replicate 4 0) (chars "v") 1).set (chars "a")
        (List.replicate 8 0) (chars "v") 2).cache = 12 ∧
    (10 : Int) < 20 ∧ (10 : Int) < 12 ∧
    (List.replicate 8 (0 : Nat)).length ≤ 10 := by
  exact ⟨by decide, by decide, by decide, by decide, by decide⟩

/-- C2 amended: the eviction loop stops once
`currentSize + len(payload) ≤ maxSize` **or the cache is empty**, and then
inserts regardless; therefore the `Σ len(data) ≤ maxSize` invariant is
preserved by `Set` provided the payload itself is within `maxSize` and the
key is a fresh non-empty key (an overwrite can double-subtract the old
entry, and an oversized payload is inserted anyway), and it is preserved
unconditionally by `Delete`. -/
theorem configDriveCache_set_del_invariant (c : ConfigDriveCache)
    (key : List Char) (data : List Nat) (srv : List Char) (now : Nat)
    (hInv : CacheInv c) (hfresh : mapFind key c.cache = none)
    (hkey : key ≠ []) (hfits : (data.length : Int) ≤ c.maxSize) :
    (CacheInv (c.set key data srv now) ∧
      (c.set key data srv now).maxSize = c.maxSize) ∧
    ∀ k2, CacheInv (c.del k2) ∧ (c.del k2).maxSize = c.maxSize := by
  obtain ⟨hacc, hbound, hkeys⟩ := hInv
  constructor
  · have hset : c.set key data srv now =
        { setEvictLoop (data.length : Int) c.cache.length c with
          cache := mapStore key ⟨data, srv, now⟩
            (setEvictLoop (data.length : Int) c.cache.length c).cache
          currentSize :=
            (setEvictLoop (data.length : Int) c.cache.length c).currentSize +
              (data.length : Int) } := by
      unfold ConfigDriveCache.set
      rw [hfresh]
    obtain ⟨l1, l2, l3, l4, l5⟩ := setEvictLoop_spec (data.length : Int)
      c.cache.length c (le_refl _) hacc hkeys
    have hfresh2 : ∀ p ∈ (setEvictLoop (data.length : Int) c.cache.length c).cache,
        p.1 ≠ key := fun p hp =>
      (mapFind_eq_none_iff key c.cache).mp hfresh p (l2 p hp)
    have happ := mapStore_fresh key ⟨data, srv, now⟩
      (setEvictLoop (data.length : Int) c.cache.length c).cache hfresh2
    rw [hset]
    refine ⟨⟨?_, ?_, ?_⟩, l5⟩
    · simp only [happ, liveSize_append_single]
      rw [l1]
    · simp only [happ, liveSize_append_single]
      rcases l3 with h | h
      · rw [← l1] at *
        omega
      · rw [h]
        simp only [liveSize, List.map_nil, List.sum_nil, zero_add]
        omega
    · intro p hp
      rw [happ] at hp
      rcases List.mem_append.mp hp with hp | hp
      · exact hkeys p (l2 p hp)
      · simp only [List.mem_singleton] at hp
        subst hp
        exact hkey
  · intro k2
    cases hfind : mapFind k2 c.cache with
    | none =>
      have hdel : c.del k2 = c := by
        unfold ConfigDriveCache.del
        rw [hfind]
      rw [hdel]
      exact ⟨⟨hacc, hbound, hkeys⟩, rfl⟩
    | some e =>
      obtain ⟨d1, d2, d3⟩ := mapErase_of_find k2 c.cache e hfind
      have hdel : c.del k2 =
          { c with
            cache := mapErase k2 c.cache
            currentSize := c.currentSize - (e.data.length : Int) } := by
        unfold ConfigDriveCache.del
        rw [hfind]
      rw [hdel]
      refine ⟨⟨?_, ?_, fun p hp => hkeys p (d3 p hp)⟩, rfl⟩
      · simp only [d1, hacc]
      · have : (0 : Int) ≤ (e.data.length : Int) := Int.ofNat_nonneg _
        simp only [d1]
        omega

/-- Witness for `configDriveCache_set_del_invariant`: inserting a 3-byte
payload under a fresh key into an empty 10-byte cache keeps the invariant,
as does deleting from it. -/
theorem configDriveCache_set_del_invariant_witness :
    CacheInv ((newConfigDriveCache 100 10).set (chars "a") [1, 2, 3]
      (chars "v") 0) ∧
    CacheInv ((newConfigDriveCache 100 10).del (chars "a")) := by
  have hInv : CacheInv (newConfigDriveCache 100 10) :=
    ⟨rfl, by decide, by simp [newConfigDriveCache]⟩
  have h := configDriveCache_set_del_invariant (newConfigDriveCache 100 10)
    (chars "a") [1, 2, 3] (chars "v") 0 hInv rfl (by decide) (by decide)
  exact ⟨h.1.1, (h.2 (chars "a")).1⟩

end SetTheorems

end BootOp
